import Mathlib

/-!
Verification of the asset version/dedup model of `src/helpers/AssetManager.js`.

The MongoDB collection `db.assets` is embedded as a `List Asset`; a `findOne`
with `sort { v: -1 }` is embedded as picking the leftmost record of maximal `v`
among those matching the query.  JavaScript truthiness of the numeric
`version` and `deletedAt` values is modelled explicitly (`0` is falsy).
Fallible operations return `Except String`.
-/

/-- One row of the `assets` collection.  `originalId` embeds `_originalId`
and `id` embeds the MongoDB `_id` (absent on documents built for insertion
after `delete asset._id`). -/
structure Asset where
  webstrateId : String
  v : Nat
  fileName : String
  originalFileName : String
  fileSize : Nat
  mimeType : String
  fileHash : String
  deletedAt : Option Nat := none
  originalId : Option Nat := none
  id : Option Nat := none
deriving DecidableEq, Repr

/-- JavaScript truthiness of the optional numeric `version` argument:
`undefined` and `0` are falsy. -/
def versionTruthy : Option Nat → Bool
  | none => false
  | some v => v != 0

/-- JavaScript truthiness of the `deletedAt` field: unset and `0` are falsy. -/
def deletedTruthy : Option Nat → Bool
  | none => false
  | some d => d != 0

/-- The query built by `getAsset`: `{ webstrateId, originalFileName: assetName }`,
with `v: { $lte: version }` added only when `version` is truthy. -/
def getAssetFilter (wid assetName : String) (version : Option Nat) (a : Asset) : Bool :=
  a.webstrateId == wid && a.originalFileName == assetName &&
    (!versionTruthy version || decide (a.v ≤ version.getD 0))

/-- `findOne` with `sort { v: -1 }`: the leftmost record of maximal `v`. -/
def findOneNewest : List Asset → Option Asset
  | [] => none
  | a :: rest =>
    match findOneNewest rest with
    | none => some a
    | some b => if b.v > a.v then some b else some a

/-- `getAsset({ webstrateId, assetName, version })` (AssetManager.js lines
146-156).  When no record matches the query, `findOne` yields `null` and the
source reads `asset.deletedAt` off it, which throws; this is embedded as an
`Except.error`.  A deleted asset is answered with `ok none` (`undefined`). -/
def getAsset (db : List Asset) (wid assetName : String) (version : Option Nat) :
    Except String (Option Asset) :=
  match findOneNewest (db.filter (getAssetFilter wid assetName version)) with
  | none => .error "TypeError: cannot read deletedAt of null"
  | some asset =>
    if deletedTruthy asset.deletedAt &&
        ((versionTruthy version && decide (asset.deletedAt.getD 0 ≤ version.getD 0)) ||
          !versionTruthy version)
    then .ok none
    else .ok (some asset)

theorem findOneNewest_spec (l : List Asset) (hne : l ≠ []) :
    ∃ a, findOneNewest l = some a ∧ a ∈ l ∧ ∀ b ∈ l, b.v ≤ a.v := by
  induction l with
  | nil => exact absurd rfl hne
  | cons x rest ih =>
    by_cases hr : rest = []
    · subst hr
      refine ⟨x, rfl, List.mem_cons_self x _, ?_⟩
      intro b hb
      simp at hb
      simp [hb]
    · obtain ⟨a, ha, hmem, hmax⟩ := ih hr
      by_cases hv : a.v > x.v
      · refine ⟨a, ?_, List.mem_cons_of_mem x hmem, ?_⟩
        · simp [findOneNewest, ha, hv]
        · intro b hb
          rcases List.mem_cons.mp hb with hbx | hbr
          · exact hbx ▸ Nat.le_of_lt hv
          · exact hmax b hbr
      · refine ⟨x, ?_, List.mem_cons_self x _, ?_⟩
        · simp [findOneNewest, ha, hv]
        · intro b hb
          rcases List.mem_cons.mp hb with hbx | hbr
          · exact hbx ▸ Nat.le_refl _
          · exact Nat.le_trans (hmax b hbr) (Nat.le_of_not_lt hv)

/-- C6: querying a document and logical name for which no record at all exists
makes `getAsset` dereference the null `findOne` result: the call throws a
`TypeError` instead of returning an absent result.  This evaluates the code at
the failing input (empty collection). -/
theorem getAsset_missing_record_throws :
    getAsset [] "doc" "img.png" none = .error "TypeError: cannot read deletedAt of null" := rfl

/-- C9: a query with `version = 0` is indistinguishable from a query with no
version: the `v` filter is dropped and the no-version deletion rule applies,
because `if (version)` and `!version` test truthiness, under which `0` is
falsy.  Consequently the newest record overall is selected and the result is
absent exactly when that record's `deletedAt` is set (to a nonzero version,
`deletedAt` itself being tested for truthiness). -/
theorem getAsset_version_zero_is_no_version (db : List Asset) (wid assetName : String) :
    getAsset db wid assetName (some 0) = getAsset db wid assetName none ∧
    (∀ a, findOneNewest (db.filter (getAssetFilter wid assetName none)) = some a →
      deletedTruthy a.deletedAt = true →
      getAsset db wid assetName (some 0) = .ok none) ∧
    (∀ a, findOneNewest (db.filter (getAssetFilter wid assetName none)) = some a →
      deletedTruthy a.deletedAt = false →
      getAsset db wid assetName (some 0) = .ok (some a)) := by
  refine ⟨rfl, ?_, ?_⟩
  · intro a ha hdel
    show getAsset db wid assetName none = .ok none
    simp [getAsset, ha, hdel, versionTruthy]
  · intro a ha hdel
    show getAsset db wid assetName none = .ok (some a)
    simp [getAsset, ha, hdel, versionTruthy]

/-- Witness for C9 at a concrete store: a record deleted at version 2 is
absent from the version-0 query, and an undeleted record is served. -/
theorem getAsset_version_zero_is_no_version_witness :
    getAsset [{ webstrateId := "d", v := 1, fileName := "f1", originalFileName := "x",
                fileSize := 3, mimeType := "text/plain", fileHash := "h1",
                deletedAt := some 2, id := some 1 }] "d" "x" (some 0) = .ok none :=
  (getAsset_version_zero_is_no_version _ "d" "x").2.1
    { webstrateId := "d", v := 1, fileName := "f1", originalFileName := "x",
      fileSize := 3, mimeType := "text/plain", fileHash := "h1",
      deletedAt := some 2, id := some 1 }
    (by decide) (by decide)

/-- In-place update of the entry with key `k` in the insertion-ordered map
that embeds the plain-object accumulator of `filterNewestAssets`. -/
def updateEntry (k : String) (a : Asset) : List (String × Asset) → List (String × Asset)
  | [] => []
  | (k1, b) :: rest => if k1 = k then (k1, a) :: rest else (k1, b) :: updateEntry k a rest

/-- One step of the `assets.forEach` loop of `filterNewestAssets`: keep the
stored record unless the incoming one has a strictly larger `v`; a fresh
logical name is appended (JavaScript objects preserve insertion order). -/
def insertNewest (m : List (String × Asset)) (a : Asset) : List (String × Asset) :=
  match m.lookup a.originalFileName with
  | none => m ++ [(a.originalFileName, a)]
  | some b => if b.v < a.v then updateEntry a.originalFileName a m else m

/-- `filterNewestAssets` (AssetManager.js lines 335-346): group by
`originalFileName`, keep the record of maximal `v` per group. -/
def filterNewestAssets (assets : List Asset) : List Asset :=
  (assets.foldl insertNewest []).map Prod.snd

/-- Invariant of the accumulator map after consuming the records of `seen`:
keys are distinct, each entry is keyed by its record's logical name, comes
from `seen`, and dominates the `v` of every same-named record of `seen`. -/
def GoodMap (seen : List Asset) (m : List (String × Asset)) : Prop :=
  (m.map Prod.fst).Nodup ∧
  (∀ p ∈ m, p.2.originalFileName = p.1) ∧
  (∀ p ∈ m, p.2 ∈ seen) ∧
  (∀ p ∈ m, ∀ b ∈ seen, b.originalFileName = p.1 → b.v ≤ p.2.v) ∧
  (∀ b ∈ seen, b.originalFileName ∈ m.map Prod.fst)

theorem lookup_none_not_mem (m : List (String × Asset)) (k : String)
    (h : m.lookup k = none) : k ∉ m.map Prod.fst := by
  induction m with
  | nil => simp
  | cons p rest ih =>
    obtain ⟨k1, b⟩ := p
    by_cases hk : k = k1
    · subst hk
      simp [List.lookup] at h
    · have hb : (k == k1) = false := beq_eq_false_iff_ne.mpr hk
      simp only [List.lookup, hb] at h
      simpa [hk] using ih h

theorem lookup_some_mem (m : List (String × Asset)) (k : String) (b : Asset)
    (h : m.lookup k = some b) : (k, b) ∈ m := by
  induction m with
  | nil => simp [List.lookup] at h
  | cons p rest ih =>
    obtain ⟨k1, c⟩ := p
    by_cases hk : k = k1
    · subst hk
      simp [List.lookup] at h
      simp [h]
    · have hb : (k == k1) = false := beq_eq_false_iff_ne.mpr hk
      simp only [List.lookup, hb] at h
      exact List.mem_cons_of_mem _ (ih h)

theorem lookup_of_mem_nodup (m : List (String × Asset)) (k : String) (x : Asset)
    (hnd : (m.map Prod.fst).Nodup) (hmem : (k, x) ∈ m) : m.lookup k = some x := by
  induction m with
  | nil => simp at hmem
  | cons p rest ih =>
    obtain ⟨k1, c⟩ := p
    simp only [List.map_cons, List.nodup_cons] at hnd
    rcases List.mem_cons.mp hmem with heq | hrest
    · obtain ⟨hk, hx⟩ := Prod.mk.injEq .. ▸ heq
      subst hk
      subst hx
      simp [List.lookup]
    · have hk : k ≠ k1 := by
        intro hkk
        subst hkk
        exact hnd.1 (by simpa using List.mem_map_of_mem Prod.fst hrest)
      have hb : (k == k1) = false := beq_eq_false_iff_ne.mpr hk
      simp only [List.lookup, hb]
      exact ih hnd.2 hrest

theorem updateEntry_keys (k : String) (a : Asset) (m : List (String × Asset)) :
    (updateEntry k a m).map Prod.fst = m.map Prod.fst := by
  induction m with
  | nil => rfl
  | cons p rest ih =>
    obtain ⟨k1, b⟩ := p
    by_cases hk : k1 = k
    · simp [updateEntry, hk]
    · simp [updateEntry, hk, ih]

theorem mem_updateEntry_nodup (k : String) (a : Asset) (m : List (String × Asset))
    (hnd : (m.map Prod.fst).Nodup) (p : String × Asset) (hp : p ∈ updateEntry k a m) :
    (p ∈ m ∧ p.1 ≠ k) ∨ (p.1 = k ∧ p.2 = a ∧ k ∈ m.map Prod.fst) := by
  induction m with
  | nil => simp [updateEntry] at hp
  | cons q rest ih =>
    obtain ⟨k1, b⟩ := q
    simp only [List.map_cons, List.nodup_cons] at hnd
    by_cases hk : k1 = k
    · subst hk
      simp only [updateEntry, if_pos rfl] at hp
      rcases List.mem_cons.mp hp with heq | hrest
      · subst heq
        exact Or.inr ⟨rfl, rfl, by simp⟩
      · refine Or.inl ⟨List.mem_cons_of_mem _ hrest, ?_⟩
        intro hpk
        exact hnd.1 (hpk ▸ List.mem_map_of_mem Prod.fst hrest)
    · simp only [updateEntry, if_neg hk] at hp
      rcases List.mem_cons.mp hp with heq | hrest
      · subst heq
        exact Or.inl ⟨List.mem_cons_self _ _, by simpa using hk⟩
      · rcases ih hnd.2 hrest with ⟨hm, hne⟩ | ⟨h1, h2, h3⟩
        · exact Or.inl ⟨List.mem_cons_of_mem _ hm, hne⟩
        · exact Or.inr ⟨h1, h2, by simp [h3]⟩

theorem goodMap_insert (seen : List Asset) (m : List (String × Asset)) (c : Asset)
    (h : GoodMap seen m) : GoodMap (seen ++ [c]) (insertNewest m c) := by
  unfold GoodMap at h ⊢
  obtain ⟨hnd, hkey, hmem, hdom, hcomp⟩ := h
  cases hl : m.lookup c.originalFileName with
  | none =>
    have hnotin : c.originalFileName ∉ m.map Prod.fst := lookup_none_not_mem m _ hl
    have hstep : insertNewest m c = m ++ [(c.originalFileName, c)] := by
      simp [insertNewest, hl]
    rw [hstep]
    refine ⟨?_, ?_, ?_, ?_, ?_⟩
    · rw [List.map_append]
      simp only [List.map_cons, List.map_nil]
      rw [List.nodup_append]
      refine ⟨hnd, List.nodup_singleton _, ?_⟩
      intro k hk hkc
      simp at hkc
      subst hkc
      exact hnotin hk
    · intro p hp
      rcases List.mem_append.mp hp with hpm | hpc
      · exact hkey p hpm
      · simp at hpc
        rw [hpc]
    · intro p hp
      rcases List.mem_append.mp hp with hpm | hpc
      · exact List.mem_append_left _ (hmem p hpm)
      · simp at hpc
        rw [hpc]
        exact List.mem_append_right _ (by simp)
    · intro p hp b hb hname
      rcases List.mem_append.mp hp with hpm | hpc
      · rcases List.mem_append.mp hb with hbs | hbc
        · exact hdom p hpm b hbs hname
        · simp at hbc
          subst hbc
          exact absurd (hname ▸ List.mem_map_of_mem Prod.fst hpm) hnotin
      · simp at hpc
        rw [hpc]
        rcases List.mem_append.mp hb with hbs | hbc
        · rw [hpc] at hname
          have hbn : b.originalFileName = c.originalFileName := by simpa using hname
          exact absurd (hbn ▸ hcomp b hbs) hnotin
        · simp at hbc
          subst hbc
          exact Nat.le_refl _
    · intro b hb
      rw [List.map_append]
      rcases List.mem_append.mp hb with hbs | hbc
      · exact List.mem_append_left _ (hcomp b hbs)
      · simp at hbc
        subst hbc
        exact List.mem_append_right _ (by simp)
  | some b0 =>
    have hb0mem : (c.originalFileName, b0) ∈ m := lookup_some_mem m _ b0 hl
    by_cases hv : b0.v < c.v
    · have hstep : insertNewest m c = updateEntry c.originalFileName c m := by
        simp [insertNewest, hl, hv]
      rw [hstep]
      have hkeys := updateEntry_keys c.originalFileName c m
      refine ⟨hkeys ▸ hnd, ?_, ?_, ?_, ?_⟩
      · intro p hp
        rcases mem_updateEntry_nodup _ _ _ hnd p hp with ⟨hpm, _⟩ | ⟨h1, h2, _⟩
        · exact hkey p hpm
        · rw [h1, h2]
      · intro p hp
        rcases mem_updateEntry_nodup _ _ _ hnd p hp with ⟨hpm, _⟩ | ⟨_, h2, _⟩
        · exact List.mem_append_left _ (hmem p hpm)
        · rw [h2]
          exact List.mem_append_right _ (by simp)
      · intro p hp b hb hname
        rcases mem_updateEntry_nodup _ _ _ hnd p hp with ⟨hpm, hpne⟩ | ⟨h1, h2, _⟩
        · rcases List.mem_append.mp hb with hbs | hbc
          · exact hdom p hpm b hbs hname
          · simp at hbc
            subst hbc
            exact absurd hname.symm hpne
        · rw [h2]
          rcases List.mem_append.mp hb with hbs | hbc
          · have hb0 := hdom (c.originalFileName, b0) hb0mem b hbs (by rw [hname, h1])
            exact Nat.le_of_lt (Nat.lt_of_le_of_lt hb0 hv)
          · simp at hbc
            subst hbc
            exact Nat.le_refl _
      · intro b hb
        rw [hkeys]
        rcases List.mem_append.mp hb with hbs | hbc
        · exact hcomp b hbs
        · simp at hbc
          subst hbc
          exact List.mem_map_of_mem Prod.fst hb0mem
    · have hstep : insertNewest m c = m := by
        simp [insertNewest, hl, hv]
      rw [hstep]
      refine ⟨hnd, hkey, ?_, ?_, ?_⟩
      · intro p hp
        exact List.mem_append_left _ (hmem p hp)
      · intro p hp b hb hname
        rcases List.mem_append.mp hb with hbs | hbc
        · exact hdom p hp b hbs hname
        · simp at hbc
          subst hbc
          have hlk : m.lookup p.1 = some p.2 :=
            lookup_of_mem_nodup m p.1 p.2 hnd (by simpa using hp)
          rw [← hname] at hlk
          rw [hl] at hlk
          have hpb0 : p.2 = b0 := by
            injection hlk.symm
          rw [hpb0]
          exact Nat.le_of_not_lt hv
      · intro b hb
        rcases List.mem_append.mp hb with hbs | hbc
        · exact hcomp b hbs
        · simp at hbc
          subst hbc
          exact List.mem_map_of_mem Prod.fst hb0mem

theorem goodMap_foldl (assets : List Asset) :
    ∀ (seen : List Asset) (m : List (String × Asset)), GoodMap seen m →
      GoodMap (seen ++ assets) (assets.foldl insertNewest m) := by
  induction assets with
  | nil =>
    intro seen m h
    simpa using h
  | cons c rest ih =>
    intro seen m h
    have h3 := ih (seen ++ [c]) (insertNewest m c) (goodMap_insert seen m c h)
    simpa [List.append_assoc] using h3

/-- C2: the version resolver `filterNewestAssets` returns at most one record
per distinct `originalFileName` (the returned logical names are pairwise
distinct), every returned record comes from the input, and its `v` is maximal
among the input records bearing the same logical name. -/
theorem filterNewestAssets_spec (assets : List Asset) :
    ((filterNewestAssets assets).map (fun a => a.originalFileName)).Nodup ∧
    ∀ a ∈ filterNewestAssets assets, a ∈ assets ∧
      ∀ b ∈ assets, b.originalFileName = a.originalFileName → b.v ≤ a.v := by
  have h0 : GoodMap [] ([] : List (String × Asset)) := by
    unfold GoodMap
    simp
  have h := goodMap_foldl assets [] [] h0
  simp only [List.nil_append] at h
  unfold GoodMap at h
  obtain ⟨hnd, hkey, hmem, hdom, -⟩ := h
  constructor
  · have heq : ((assets.foldl insertNewest []).map Prod.snd).map
        (fun a => a.originalFileName) = (assets.foldl insertNewest []).map Prod.fst := by
      rw [List.map_map]
      exact List.map_congr_left hkey
    rw [filterNewestAssets, heq]
    exact hnd
  · intro a ha
    rw [filterNewestAssets] at ha
    obtain ⟨p, hp, hpa⟩ := List.mem_map.mp ha
    refine ⟨hpa ▸ hmem p hp, ?_⟩
    intro b hb hname
    have hb1 : b.originalFileName = p.1 := by
      rw [hname, ← hpa]
      exact hkey p hp
    have := hdom p hp b hb hb1
    rw [← hpa]
    exact this

theorem getAssetFilter_none (wid assetName : String) (a : Asset) :
    getAssetFilter wid assetName none a =
      (a.webstrateId == wid && a.originalFileName == assetName) := by
  simp [getAssetFilter, versionTruthy]

theorem getAssetFilter_some_pos (wid assetName : String) (V : Nat) (hV : 1 ≤ V) (a : Asset) :
    getAssetFilter wid assetName (some V) a =
      (a.webstrateId == wid && a.originalFileName == assetName && decide (a.v ≤ V)) := by
  have hvt : versionTruthy (some V) = true := by
    simp only [versionTruthy, bne_iff_ne, ne_eq, decide_eq_true_eq]
    omega
  simp [getAssetFilter, hvt]

/-- C1 (amended): for a nonzero queried version `V` -- a version of `0` is
falsy and is treated as "no version" -- and under the code's truthiness
reading of `deletedAt` (a `deletedAt` of `0` behaves as unset), `getAsset`
selects a record of maximal `v` among the records of the document and logical
name admitted by the query (`v ≤ V` when a version is given), serves it when
its `deletedAt` is unset or zero, hides it (`ok none`) when `deletedAt ≤ V`,
serves it when `deletedAt > V`, and hides it on a no-version query whenever
`deletedAt` is a nonzero version. -/
theorem getAsset_resolution_spec (db : List Asset) (wid assetName : String)
    (version : Option Nat)
    (hver : ∀ V, version = some V → 1 ≤ V)
    (hex : ∃ c ∈ db, c.webstrateId = wid ∧ c.originalFileName = assetName ∧
      ∀ V, version = some V → c.v ≤ V) :
    ∃ a ∈ db, a.webstrateId = wid ∧ a.originalFileName = assetName ∧
      (∀ V, version = some V → a.v ≤ V) ∧
      (∀ b ∈ db, b.webstrateId = wid → b.originalFileName = assetName →
        (∀ V, version = some V → b.v ≤ V) → b.v ≤ a.v) ∧
      (a.deletedAt = none → getAsset db wid assetName version = .ok (some a)) ∧
      (a.deletedAt = some 0 → getAsset db wid assetName version = .ok (some a)) ∧
      (∀ d, a.deletedAt = some d → 1 ≤ d →
        (version = none → getAsset db wid assetName version = .ok none) ∧
        (∀ V, version = some V →
          getAsset db wid assetName version = .ok (if d ≤ V then none else some a))) := by
  obtain ⟨c, hcdb, hcw, hcn, hcv⟩ := hex
  have hcf : getAssetFilter wid assetName version c = true := by
    cases version with
    | none => simp [getAssetFilter_none, hcw, hcn]
    | some V => simp [getAssetFilter_some_pos wid assetName V (hver V rfl), hcw, hcn, hcv V rfl]
  have hlne : db.filter (getAssetFilter wid assetName version) ≠ [] := by
    intro hnil
    have hcl : c ∈ db.filter (getAssetFilter wid assetName version) :=
      List.mem_filter.mpr ⟨hcdb, hcf⟩
    rw [hnil] at hcl
    simp at hcl
  obtain ⟨a, ha, hamem, hamax⟩ := findOneNewest_spec _ hlne
  obtain ⟨hadb, haf⟩ := List.mem_filter.mp hamem
  have hafields : a.webstrateId = wid ∧ a.originalFileName = assetName ∧
      ∀ V, version = some V → a.v ≤ V := by
    cases version with
    | none =>
      rw [getAssetFilter_none] at haf
      simp at haf
      exact ⟨haf.1, haf.2, fun V h => by cases h⟩
    | some V =>
      rw [getAssetFilter_some_pos wid assetName V (hver V rfl)] at haf
      simp at haf
      obtain ⟨⟨h1, h2⟩, h3⟩ := haf
      refine ⟨h1, h2, fun W h => ?_⟩
      injection h with h
      exact h ▸ h3
  refine ⟨a, hadb, hafields.1, hafields.2.1, hafields.2.2, ?_, ?_, ?_, ?_⟩
  · intro b hb hbw hbn hbv
    have hbf : getAssetFilter wid assetName version b = true := by
      cases version with
      | none => simp [getAssetFilter_none, hbw, hbn]
      | some V =>
        simp [getAssetFilter_some_pos wid assetName V (hver V rfl), hbw, hbn, hbv V rfl]
    exact hamax b (List.mem_filter.mpr ⟨hb, hbf⟩)
  · intro hdel
    simp [getAsset, ha, hdel, deletedTruthy]
  · intro hdel
    simp [getAsset, ha, hdel, deletedTruthy]
  · intro d hdel hd
    have hdt : deletedTruthy (some d) = true := by
      cases d with
      | zero => omega
      | succ n => rfl
    constructor
    · intro hvn
      subst hvn
      simp [getAsset, ha, hdel, hdt, versionTruthy]
    · intro V hvs
      subst hvs
      have h1V : 1 ≤ V := hver V rfl
      have hvt : versionTruthy (some V) = true := by
        cases V with
        | zero => omega
        | succ n => rfl
      by_cases hle : d ≤ V
      · simp [getAsset, ha, hdel, hdt, hvt, hle]
      · simp [getAsset, ha, hdel, hdt, hvt, hle]

/-- Same logical name at versions 0 and 5 (copies made by `copyAssets` live at
version 0, so version-0 records occur in real stores). -/
def verZeroAssetA : Asset :=
  { webstrateId := "d", v := 0, fileName := "fa", originalFileName := "x",
    fileSize := 1, mimeType := "image/png", fileHash := "ha", id := some 1 }

def verZeroAssetB : Asset :=
  { webstrateId := "d", v := 5, fileName := "fb", originalFileName := "x",
    fileSize := 2, mimeType := "image/png", fileHash := "hb", id := some 2 }

/-- A record soft-deleted at the falsy version 0. -/
def delZeroAsset : Asset :=
  { webstrateId := "e", v := 1, fileName := "fc", originalFileName := "y",
    fileSize := 3, mimeType := "image/png", fileHash := "hc",
    deletedAt := some 0, id := some 3 }

/-- C1 counterexample.  First part: at queried version `V = 0` a record with
`v ≤ 0` exists (`verZeroAssetA`, not deleted), so the claim demands that it --
the record of greatest `v ≤ 0` -- be returned; the code instead drops the
version filter (`0` is falsy) and returns the `v = 5` record.  Second part: a
record with `deletedAt = 0 ≤ V = 1` must be absent by the claim, yet the code
treats the falsy `deletedAt` as unset and serves the record. -/
theorem getAsset_resolution_counterexample :
    (verZeroAssetA.v ≤ 0 ∧ verZeroAssetA.deletedAt = none ∧
      getAsset [verZeroAssetA, verZeroAssetB] "d" "x" (some 0) = .ok (some verZeroAssetB) ∧
      verZeroAssetB.v = 5) ∧
    (delZeroAsset.v ≤ 1 ∧ delZeroAsset.deletedAt = some 0 ∧
      getAsset [delZeroAsset] "e" "y" (some 1) = .ok (some delZeroAsset)) := by
  refine ⟨⟨Nat.le_refl 0, rfl, rfl, rfl⟩, ⟨by decide, rfl, rfl⟩⟩

/-- A concrete two-record store for exercising `getAsset` at version 3. -/
def wDb : List Asset :=
  [{ webstrateId := "w", v := 1, fileName := "g1", originalFileName := "x",
     fileSize := 4, mimeType := "text/plain", fileHash := "k1",
     deletedAt := some 2, id := some 4 },
   { webstrateId := "w", v := 2, fileName := "g2", originalFileName := "x",
     fileSize := 5, mimeType := "text/plain", fileHash := "k2", id := some 5 }]

/-- Witness for the amended C1: the resolution property instantiated at the
concrete store `wDb`, document `w`, name `x` and queried version 3, with both
hypotheses discharged. -/
theorem getAsset_resolution_spec_witness :
    ∃ a ∈ wDb, a.webstrateId = "w" ∧ a.originalFileName = "x" ∧
      (∀ V, (some 3 : Option Nat) = some V → a.v ≤ V) ∧
      (∀ b ∈ wDb, b.webstrateId = "w" → b.originalFileName = "x" →
        (∀ V, (some 3 : Option Nat) = some V → b.v ≤ V) → b.v ≤ a.v) ∧
      (a.deletedAt = none → getAsset wDb "w" "x" (some 3) = .ok (some a)) ∧
      (a.deletedAt = some 0 → getAsset wDb "w" "x" (some 3) = .ok (some a)) ∧
      (∀ d, a.deletedAt = some d → 1 ≤ d →
        ((some 3 : Option Nat) = none → getAsset wDb "w" "x" (some 3) = .ok none) ∧
        (∀ V, (some 3 : Option Nat) = some V →
          getAsset wDb "w" "x" (some 3) = .ok (if d ≤ V then none else some a))) :=
  getAsset_resolution_spec wDb "w" "x" (some 3)
    (by
      intro V h
      injection h with h
      omega)
    ⟨{ webstrateId := "w", v := 2, fileName := "g2", originalFileName := "x",
       fileSize := 5, mimeType := "text/plain", fileHash := "k2", id := some 5 },
     by simp [wDb], rfl, rfl, by
      intro V h
      injection h with h
      subst h
      decide⟩

/-- The fetch of `copyAssets`: records of the source document at `v ≤ version`. -/
def copyQuery (db : List Asset) (fromId : String) (version : Nat) : List Asset :=
  db.filter (fun a => a.webstrateId == fromId && decide (a.v ≤ version))

/-- The per-record mutation inside `copyAssets`: reset `v` to 0, retarget the
document, keep `_originalId` when already set and otherwise point it at the
source's `_id`, then drop `_id`. -/
def copyClone (toId : String) (a : Asset) : Asset :=
  { a with
    v := 0,
    webstrateId := toId,
    originalId := (match a.originalId with
      | some o => some o
      | none => a.id),
    id := none }

/-- `copyAssets` (AssetManager.js lines 217-241): the list of records handed
to `insertMany` (an empty list embeds the `next()` early return). -/
def copyAssets (db : List Asset) (fromId toId : String) (version : Nat) : List Asset :=
  (filterNewestAssets (copyQuery db fromId version)).map (copyClone toId)

/-- C3 (amended): the records inserted by `copyAssets` are exactly, in order,
the clones of the resolved-current set of the source document at `version` --
with soft-deleted records NOT excluded: each clone keeps its source's
`deletedAt` -- and each clone has `v = 0`, the target `webstrateId`, its
source's `fileName` storage key, and `_originalId` equal to the source's
existing `_originalId` when set, else the source's own `_id`. -/
theorem copyAssets_spec (db : List Asset) (fromId toId : String) (version : Nat) :
    List.Forall₂ (fun clone src =>
        clone.v = 0 ∧ clone.webstrateId = toId ∧ clone.fileName = src.fileName ∧
        clone.originalFileName = src.originalFileName ∧ clone.fileSize = src.fileSize ∧
        clone.fileHash = src.fileHash ∧ clone.deletedAt = src.deletedAt ∧
        clone.originalId = (match src.originalId with
          | some o => some o
          | none => src.id))
      (copyAssets db fromId toId version)
      (filterNewestAssets (copyQuery db fromId version)) := by
  rw [copyAssets, List.forall₂_map_left_iff, List.forall₂_same]
  intro a ha
  cases hoid : a.originalId with
  | none => simp [copyClone, hoid]
  | some o => simp [copyClone, hoid]

/-- A record soft-deleted at version 1 of document `A`. -/
def softDeletedAsset : Asset :=
  { webstrateId := "A", v := 1, fileName := "fd", originalFileName := "z",
    fileSize := 7, mimeType := "image/png", fileHash := "hd",
    deletedAt := some 1, id := some 6 }

/-- C3 counterexample: the claim says records already soft-deleted by the
copy version are excluded from the inserted set, but `copyAssets` never
filters on `deletedAt`: copying document `A` at version 1 inserts a clone of
a record whose `deletedAt = 1 ≤ 1`, deletion marker included. -/
theorem copyAssets_counterexample :
    softDeletedAsset.deletedAt = some 1 ∧ softDeletedAsset.v ≤ 1 ∧
    (copyAssets [softDeletedAsset] "A" "B" 1).length = 1 ∧
    (copyAssets [softDeletedAsset] "A" "B" 1).map (fun a => a.deletedAt) = [some 1] := by
  refine ⟨rfl, by decide, rfl, rfl⟩

/-- The fetch of `restoreAssets`: records of the document at `v ≤ version`,
with `_id` projected away (`{ _id: 0 }`). -/
def restoreQuery (db : List Asset) (wid : String) (version : Nat) : List Asset :=
  (db.filter (fun a => a.webstrateId == wid && decide (a.v ≤ version))).map
    (fun a => { a with id := none })

/-- The body of `restoreAssets` once a truthy version is in hand: terminate
without inserting when the fetch is empty, otherwise insert the resolved
records with `v` bumped to `newVersion`. -/
def restoreInsert (db : List Asset) (wid : String) (version newVersion : Nat) : List Asset :=
  if (restoreQuery db wid version).length = 0 then []
  else (filterNewestAssets (restoreQuery db wid version)).map
    (fun a => { a with v := newVersion })

/-- `restoreAssets` (AssetManager.js lines 256-278).  A falsy (`0`) `version`
is replaced by the version `tagVersion` the external version engine resolves
the tag to, re-entering the function; if that resolution is also falsy the
recursion never terminates, embedded here as `none`.  The result is the list
of records handed to `insertMany` (`[]` embeds the `next()` early return). -/
def restoreAssets (db : List Asset) (wid : String) (version tagVersion newVersion : Nat) :
    Option (List Asset) :=
  if version ≠ 0 then some (restoreInsert db wid version newVersion)
  else if tagVersion ≠ 0 then some (restoreInsert db wid tagVersion newVersion)
  else none

/-- C7 (amended): for a nonzero (truthy) `version`, `restoreAssets` inserts
exactly one clone of each record of the resolved-current set at `version`,
in order; each clone has `v = newVersion` and its deletion state and all
other fields unchanged; nothing is inserted when the resolved set is empty. -/
theorem restoreAssets_spec (db : List Asset) (wid : String)
    (version tagVersion newVersion : Nat) (hver : 1 ≤ version) :
    ∃ inserted, restoreAssets db wid version tagVersion newVersion = some inserted ∧
      List.Forall₂ (fun clone src =>
          clone.v = newVersion ∧ clone.deletedAt = src.deletedAt ∧
          clone.webstrateId = src.webstrateId ∧ clone.fileName = src.fileName ∧
          clone.originalFileName = src.originalFileName ∧
          clone.fileSize = src.fileSize ∧ clone.fileHash = src.fileHash)
        inserted (filterNewestAssets (restoreQuery db wid version)) ∧
      (filterNewestAssets (restoreQuery db wid version) = [] → inserted = []) := by
  have hne : version ≠ 0 := by omega
  refine ⟨restoreInsert db wid version newVersion, by simp [restoreAssets, hne], ?_, ?_⟩
  · rw [restoreInsert]
    by_cases h0 : (restoreQuery db wid version).length = 0
    · have hq : restoreQuery db wid version = [] := List.length_eq_zero.mp h0
      rw [if_pos h0, hq]
      exact List.Forall₂.nil
    · rw [if_neg h0, List.forall₂_map_left_iff, List.forall₂_same]
      intro a ha
      simp
  · intro hres
    rw [restoreInsert]
    by_cases h0 : (restoreQuery db wid version).length = 0
    · rw [if_pos h0]
    · rw [if_neg h0, hres]
      rfl

/-- Records of one logical name at versions 0 and 3 of document `r`. -/
def restoreLowAsset : Asset :=
  { webstrateId := "r", v := 0, fileName := "fl", originalFileName := "m",
    fileSize := 1, mimeType := "text/csv", fileHash := "hl", id := some 7 }

def restoreHighAsset : Asset :=
  { webstrateId := "r", v := 3, fileName := "fh", originalFileName := "m",
    fileSize := 2, mimeType := "text/csv", fileHash := "hh", id := some 8 }

/-- C7 counterexample: at `version = 0` the resolved-current set holds only
the `v = 0` record (hash `hl`), so the claim demands a clone of it; but `0`
is falsy, so the code re-enters with the tag-resolved version (here 5) and
instead inserts a clone of the `v = 3` record (hash `hh`). -/
theorem restoreAssets_counterexample :
    (filterNewestAssets (restoreQuery [restoreLowAsset, restoreHighAsset] "r" 0)).map
        (fun a => a.fileHash) = ["hl"] ∧
    (restoreAssets [restoreLowAsset, restoreHighAsset] "r" 0 5 10).map
        (fun l => l.map (fun a => a.fileHash)) = some ["hh"] := by
  refine ⟨rfl, rfl⟩

/-- Witness for the amended C7 at a concrete store: restore of document `r`
from version 3 to new version 9 with a single record present. -/
theorem restoreAssets_spec_witness :
    ∃ inserted, restoreAssets [restoreHighAsset] "r" 3 0 9 = some inserted ∧
      List.Forall₂ (fun clone src =>
          clone.v = 9 ∧ clone.deletedAt = src.deletedAt ∧
          clone.webstrateId = src.webstrateId ∧ clone.fileName = src.fileName ∧
          clone.originalFileName = src.originalFileName ∧
          clone.fileSize = src.fileSize ∧ clone.fileHash = src.fileHash)
        inserted (filterNewestAssets (restoreQuery [restoreHighAsset] "r" 3)) ∧
      (filterNewestAssets (restoreQuery [restoreHighAsset] "r" 3) = [] → inserted = []) :=
  restoreAssets_spec [restoreHighAsset] "r" 3 0 9 (by decide)

/-- Target selection of `findOneAndUpdate` with `sort { v: -1 }`: the index
(offset by `i`) and value of the leftmost record of maximal `v` among those
satisfying `p`. -/
def pickNewestIdx (p : Asset → Bool) : List Asset → Nat → Option (Nat × Asset)
  | [], _ => none
  | a :: rest, i =>
    if p a then
      match pickNewestIdx p rest (i + 1) with
      | none => some (i, a)
      | some (j, b) => if b.v > a.v then some (j, b) else some (i, a)
    else pickNewestIdx p rest (i + 1)

/-- `markAssetAsDeleted` (AssetManager.js lines 168-178): one atomic
`findOneAndUpdate` on `{ webstrateId, originalFileName }` sorted by `v`
descending, `$set`-ing `deletedAt` to the document's current `version`.  The
success value is the matched (pre-update) record together with the updated
collection; a null `res.value` rejects with `Update failed`. -/
def markAssetAsDeleted (db : List Asset) (wid assetName : String) (version : Nat) :
    Except String (Asset × List Asset) :=
  match pickNewestIdx
      (fun a => a.webstrateId == wid && a.originalFileName == assetName) db 0 with
  | none => .error "Update failed"
  | some (i, a) => .ok (a, db.set i { a with deletedAt := some version })

theorem pickNewestIdx_eq_none (p : Asset → Bool) (l : List Asset) (i : Nat) :
    pickNewestIdx p l i = none ↔ ∀ a ∈ l, p a = false := by
  induction l generalizing i with
  | nil => simp [pickNewestIdx]
  | cons x rest ih =>
    simp only [pickNewestIdx]
    by_cases hp : p x = true
    · rw [if_pos hp]
      constructor
      · intro h
        cases hr : pickNewestIdx p rest (i + 1) with
        | none => rw [hr] at h; simp at h
        | some pr =>
          obtain ⟨j, b⟩ := pr
          rw [hr] at h
          by_cases hv : b.v > x.v
          · simp [hv] at h
          · simp [hv] at h
      · intro h
        exact absurd hp (by simp [h x (List.mem_cons_self x rest)])
    · rw [if_neg hp, ih (i + 1)]
      constructor
      · intro h a ha
        rcases List.mem_cons.mp ha with h1 | h2
        · subst h1
          exact Bool.eq_false_iff.mpr hp
        · exact h a h2
      · intro h a ha
        exact h a (List.mem_cons_of_mem _ ha)

theorem pickNewestIdx_eq_some (p : Asset → Bool) (l : List Asset) :
    ∀ (i j : Nat) (a : Asset), pickNewestIdx p l i = some (j, a) →
      p a = true ∧ i ≤ j ∧ l[j - i]? = some a ∧
        ∀ b ∈ l, p b = true → b.v ≤ a.v := by
  induction l with
  | nil =>
    intro i j a h
    simp [pickNewestIdx] at h
  | cons x rest ih =>
    intro i j a h
    simp only [pickNewestIdx] at h
    by_cases hp : p x = true
    · rw [if_pos hp] at h
      cases hr : pickNewestIdx p rest (i + 1) with
      | none =>
        rw [hr] at h
        simp at h
        obtain ⟨hj, ha⟩ := h
        subst hj
        subst ha
        refine ⟨hp, Nat.le_refl i, by simp, ?_⟩
        intro b hb hpb
        rcases List.mem_cons.mp hb with h1 | h2
        · simp [h1]
        · exact absurd hpb (by simp [(pickNewestIdx_eq_none p rest (i + 1)).mp hr b h2])
      | some pr =>
        obtain ⟨j2, b⟩ := pr
        rw [hr] at h
        obtain ⟨hpb, hij2, hget, hmax⟩ := ih (i + 1) j2 b hr
        by_cases hv : b.v > x.v
        · simp [hv] at h
          obtain ⟨hj, ha⟩ := h
          subst hj
          subst ha
          refine ⟨hpb, Nat.le_trans (Nat.le_succ i) hij2, ?_, ?_⟩
          · have hsub : j2 - i = (j2 - (i + 1)) + 1 := by omega
            rw [hsub, List.getElem?_cons_succ]
            exact hget
          · intro c hc hpc
            rcases List.mem_cons.mp hc with h1 | h2
            · rw [h1]
              exact Nat.le_of_lt hv
            · exact hmax c h2 hpc
        · simp [hv] at h
          obtain ⟨hj, ha⟩ := h
          subst hj
          subst ha
          refine ⟨hp, Nat.le_refl i, by simp, ?_⟩
          intro c hc hpc
          rcases List.mem_cons.mp hc with h1 | h2
          · simp [h1]
          · exact Nat.le_trans (hmax c h2 hpc) (Nat.le_of_not_lt hv)
    · rw [if_neg hp] at h
      obtain ⟨hpa, hij, hget, hmax⟩ := ih (i + 1) j a h
      refine ⟨hpa, Nat.le_trans (Nat.le_succ i) hij, ?_, ?_⟩
      · have hsub : j - i = (j - (i + 1)) + 1 := by omega
        rw [hsub, List.getElem?_cons_succ]
        exact hget
      · intro c hc hpc
        rcases List.mem_cons.mp hc with h1 | h2
        · rw [h1] at hpc
          exact absurd hpc hp
        · exact hmax c h2 hpc

/-- C4 (amended): `markAssetAsDeleted` targets the newest (maximal `v`)
record matching `(webstrateId, originalFileName)` and sets its `deletedAt` to
the document's current version -- overwriting any `deletedAt` already present,
since the update's query never tests that field -- succeeding exactly when a
matching record exists, and rejecting with `Update failed` when none does. -/
theorem markAssetAsDeleted_spec (db : List Asset) (wid assetName : String) (version : Nat) :
    ((∀ a ∈ db, ¬(a.webstrateId = wid ∧ a.originalFileName = assetName)) →
      markAssetAsDeleted db wid assetName version = .error "Update failed") ∧
    ((∃ a ∈ db, a.webstrateId = wid ∧ a.originalFileName = assetName) →
      ∃ a db2, markAssetAsDeleted db wid assetName version = .ok (a, db2) ∧
        a ∈ db ∧ a.webstrateId = wid ∧ a.originalFileName = assetName ∧
        (∀ b ∈ db, b.webstrateId = wid → b.originalFileName = assetName → b.v ≤ a.v) ∧
        db2.length = db.length ∧
        { a with deletedAt := some version } ∈ db2) := by
  constructor
  · intro hnone
    have hn : pickNewestIdx
        (fun a => a.webstrateId == wid && a.originalFileName == assetName) db 0 = none := by
      rw [pickNewestIdx_eq_none]
      intro a ha
      have hne := hnone a ha
      by_cases hw : a.webstrateId = wid
      · by_cases hn2 : a.originalFileName = assetName
        · exact absurd ⟨hw, hn2⟩ hne
        · simp [hn2]
      · simp [hw]
    simp [markAssetAsDeleted, hn]
  · intro hex
    obtain ⟨c, hcdb, hcw, hcn⟩ := hex
    cases hpk : pickNewestIdx
        (fun a => a.webstrateId == wid && a.originalFileName == assetName) db 0 with
    | none =>
      exfalso
      have hcf := (pickNewestIdx_eq_none _ db 0).mp hpk c hcdb
      simp [hcw, hcn] at hcf
    | some pr =>
      obtain ⟨j, a⟩ := pr
      obtain ⟨hpa, -, hget, hmax⟩ := pickNewestIdx_eq_some _ db 0 j a hpk
      simp only [Nat.sub_zero] at hget
      obtain ⟨hjlt, hje⟩ := List.getElem?_eq_some.mp hget
      have hadb : a ∈ db := by
        rw [← hje]
        exact List.getElem_mem hjlt
      have haw : a.webstrateId = wid ∧ a.originalFileName = assetName := by
        simpa using hpa
      refine ⟨a, db.set j { a with deletedAt := some version }, ?_, hadb, haw.1, haw.2,
        ?_, ?_, ?_⟩
      · simp [markAssetAsDeleted, hpk]
      · intro b hb hbw hbn
        exact hmax b hb (by simp [hbw, hbn])
      · exact List.length_set db j _
      · have h1 : (db.set j { a with deletedAt := some version })[j]?
            = some { a with deletedAt := some version } := by
          rw [List.getElem?_set_self]
          simp [hjlt]
        obtain ⟨hlt2, he2⟩ := List.getElem?_eq_some.mp h1
        have h2 := List.getElem_mem hlt2
        rwa [he2] at h2

/-- A record already soft-deleted at version 3. -/
def alreadyDeletedAsset : Asset :=
  { webstrateId := "d", v := 2, fileName := "fm", originalFileName := "q",
    fileSize := 9, mimeType := "image/png", fileHash := "hm",
    deletedAt := some 3, id := some 9 }

/-- C4 counterexample: the claim says the update succeeds only when the
matched record has no `deletedAt` already set, but the `findOneAndUpdate`
query never tests that field: marking `q` again at version 7 succeeds and
silently overwrites the existing `deletedAt = 3` marker. -/
theorem markAssetAsDeleted_counterexample :
    alreadyDeletedAsset.deletedAt = some 3 ∧
    markAssetAsDeleted [alreadyDeletedAsset] "d" "q" 7 =
      .ok (alreadyDeletedAsset, [{ alreadyDeletedAsset with deletedAt := some 7 }]) := by
  refine ⟨rfl, rfl⟩

/-- Witness for the amended C4: the success case instantiated at a concrete
one-record store, existence hypothesis discharged. -/
theorem markAssetAsDeleted_spec_witness :
    ∃ a db2, markAssetAsDeleted [alreadyDeletedAsset] "d" "q" 7 = .ok (a, db2) ∧
      a ∈ [alreadyDeletedAsset] ∧ a.webstrateId = "d" ∧ a.originalFileName = "q" ∧
      (∀ b ∈ [alreadyDeletedAsset],
        b.webstrateId = "d" → b.originalFileName = "q" → b.v ≤ a.v) ∧
      db2.length = ([alreadyDeletedAsset] : List Asset).length ∧
      { a with deletedAt := some 7 } ∈ db2 :=
  (markAssetAsDeleted_spec [alreadyDeletedAsset] "d" "q" 7).2
    ⟨alreadyDeletedAsset, by simp, rfl, rfl⟩

/-- The asset record collection together with the physical blob store
(files under `UPLOAD_DEST`, keyed by `fileName`). -/
structure AssetStore where
  records : List Asset
  blobs : List String
deriving DecidableEq, Repr

/-- The storage keys referenced by records of document `wid` (the primitive
array `assets` built at the top of `deleteAssets`). -/
def docKeys (st : AssetStore) (wid : String) : List String :=
  (st.records.filter (fun a => a.webstrateId == wid)).map (fun a => a.fileName)

/-- The `distinct('fileName', ...)` query of `deleteAssets`: keys of the
document that records of other documents also reference. -/
def assetsBeingUsed (st : AssetStore) (wid : String) : List String :=
  (st.records.filter (fun a =>
    (docKeys st wid).contains a.fileName && !(a.webstrateId == wid))).map
    (fun a => a.fileName)

/-- The keys whose blobs `deleteAssets` unlinks: the document's keys minus
those used by other documents. -/
def assetsToBeDeleted (st : AssetStore) (wid : String) : List String :=
  (docKeys st wid).filter (fun k => !(assetsBeingUsed st wid).contains k)

/-- `deleteAssets` (AssetManager.js lines 287-325).  `unlinkFails` says which
`fs.unlink` calls fail: a failure is logged and the blob survives, execution
continues, and the document's records are removed unconditionally by the
final `deleteMany`. -/
def deleteAssets (st : AssetStore) (wid : String) (unlinkFails : String → Bool) :
    AssetStore :=
  { records := st.records.filter (fun a => !(a.webstrateId == wid)),
    blobs := st.blobs.filter
      (fun b => !(assetsToBeDeleted st wid).contains b || unlinkFails b) }

theorem not_mem_assetsToBeDeleted (st : AssetStore) (wid : String) (b : String)
    (a : Asset) (hadb : a ∈ st.records) (haw : a.webstrateId ≠ wid)
    (hab : a.fileName = b) : b ∉ assetsToBeDeleted st wid := by
  intro hmem
  obtain ⟨hkeys, hcond⟩ := List.mem_filter.mp hmem
  have hbu : b ∈ assetsBeingUsed st wid := by
    refine List.mem_map.mpr ⟨a, List.mem_filter.mpr ⟨hadb, ?_⟩, hab⟩
    simp [haw]
    rwa [hab]
  rw [Bool.not_eq_eq_eq_not] at hcond
  simp at hcond
  exact hcond hbu

/-- C5: `deleteAssets` never removes a blob whose storage key some record of
another document still references, and it removes exactly the document's own
records from the collection -- unconditionally, whatever subset of the
individual blob deletions fail. -/
theorem deleteAssets_spec (st : AssetStore) (wid : String) (unlinkFails : String → Bool) :
    (∀ b ∈ st.blobs, (∃ a ∈ st.records, a.webstrateId ≠ wid ∧ a.fileName = b) →
      b ∈ (deleteAssets st wid unlinkFails).blobs) ∧
    (deleteAssets st wid unlinkFails).records
      = st.records.filter (fun a => !(a.webstrateId == wid)) := by
  refine ⟨?_, rfl⟩
  intro b hb hex
  obtain ⟨a, hadb, haw, hab⟩ := hex
  have hnd := not_mem_assetsToBeDeleted st wid b a hadb haw hab
  rw [deleteAssets]
  refine List.mem_filter.mpr ⟨hb, ?_⟩
  simp
  exact Or.inl hnd

/-- Records of documents `D` and `E` sharing storage key `f1`. -/
def sharedKeyRecordD : Asset :=
  { webstrateId := "D", v := 1, fileName := "f1", originalFileName := "pic",
    fileSize := 5, mimeType := "image/png", fileHash := "hs", id := some 10 }

def sharedKeyRecordE : Asset :=
  { webstrateId := "E", v := 2, fileName := "f1", originalFileName := "pic2",
    fileSize := 5, mimeType := "image/png", fileHash := "hs", id := some 11 }

def sharedStore : AssetStore :=
  { records := [sharedKeyRecordD, sharedKeyRecordE], blobs := ["f1"] }

/-- Witness for C5: tearing down document `D` leaves the blob `f1` -- still
referenced by document `E` -- in the store, and removes exactly `D`'s
records. -/
theorem deleteAssets_spec_witness :
    "f1" ∈ (deleteAssets sharedStore "D" (fun _ => false)).blobs ∧
    (deleteAssets sharedStore "D" (fun _ => false)).records
      = sharedStore.records.filter (fun a => !(a.webstrateId == "D")) :=
  ⟨(deleteAssets_spec sharedStore "D" (fun _ => false)).1 "f1" (by simp [sharedStore])
    ⟨sharedKeyRecordE, by simp [sharedStore], by decide, rfl⟩,
   (deleteAssets_spec sharedStore "D" (fun _ => false)).2⟩

/-- `findDuplicateAsset` (AssetManager.js lines 96-97): a `findOne` on
`{ fileSize, fileHash }` with no document filter, embedded as the first match
in natural order. -/
def findDuplicateAsset (db : List Asset) (size : Nat) (hash : String) : Option Asset :=
  db.find? (fun a => a.fileSize == size && a.fileHash == hash)

/-- Admission of one uploaded file, as `assetUploadHandler` plus `addAsset`
perform it: when a duplicate (same `fileSize` and `fileHash`) exists anywhere
in the collection its storage key is reused (and the fresh blob discarded),
otherwise the fresh multer name becomes the key; then one record is inserted
at the document's current version. -/
def uploadFile (db : List Asset) (wid storedName origName : String) (size : Nat)
    (hash mime : String) (version recordId : Nat) : List Asset :=
  db ++ [{ webstrateId := wid, v := version,
           fileName := (match findDuplicateAsset db size hash with
             | some dup => dup.fileName
             | none => storedName),
           originalFileName := origName, fileSize := size, mimeType := mime,
           fileHash := hash, id := some recordId }]

theorem uploadFile_shares_key (db : List Asset) (wid s1 s2 n1 n2 : String)
    (size : Nat) (hash mime : String) (v1 v2 i1 i2 : Nat) :
    ∃ key,
      uploadFile (uploadFile db wid s1 n1 size hash mime v1 i1)
          wid s2 n2 size hash mime v2 i2
        = db ++
          [{ webstrateId := wid, v := v1, fileName := key, originalFileName := n1,
             fileSize := size, mimeType := mime, fileHash := hash, id := some i1 },
           { webstrateId := wid, v := v2, fileName := key, originalFileName := n2,
             fileSize := size, mimeType := mime, fileHash := hash, id := some i2 }] := by
  cases hdup : findDuplicateAsset db size hash with
  | some dup =>
    refine ⟨dup.fileName, ?_⟩
    have h1 : uploadFile db wid s1 n1 size hash mime v1 i1
        = db ++
          [{ webstrateId := wid, v := v1, fileName := dup.fileName,
             originalFileName := n1, fileSize := size, mimeType := mime,
             fileHash := hash, id := some i1 }] := by
      simp [uploadFile, hdup]
    have h2 : findDuplicateAsset (uploadFile db wid s1 n1 size hash mime v1 i1)
        size hash = some dup := by
      rw [h1, findDuplicateAsset, List.find?_append]
      rw [findDuplicateAsset] at hdup
      rw [hdup]
      rfl
    rw [uploadFile, h2, h1]
    simp
  | none =>
    refine ⟨s1, ?_⟩
    have h1 : uploadFile db wid s1 n1 size hash mime v1 i1
        = db ++
          [{ webstrateId := wid, v := v1, fileName := s1,
             originalFileName := n1, fileSize := size, mimeType := mime,
             fileHash := hash, id := some i1 }] := by
      simp [uploadFile, hdup]
    have h2 : findDuplicateAsset (uploadFile db wid s1 n1 size hash mime v1 i1)
        size hash = some
          { webstrateId := wid, v := v1, fileName := s1,
            originalFileName := n1, fileSize := size, mimeType := mime,
            fileHash := hash, id := some i1 } := by
      rw [h1, findDuplicateAsset, List.find?_append]
      rw [findDuplicateAsset] at hdup
      rw [hdup]
      simp
    rw [uploadFile, h2, h1]
    simp

/-- C8: the duplicate finder matches a record exactly when `fileSize` and
`fileHash` both match, with no restriction on the owning document; and two
sequential uploads of identical content (same size and hash) under different
logical names always leave two records bearing those names that share one
storage key. -/
theorem findDuplicateAsset_spec (db : List Asset) (size : Nat)
    (wid s1 s2 n1 n2 hash mime : String) (v1 v2 i1 i2 : Nat) :
    ((findDuplicateAsset db size hash).isSome ↔
      ∃ a, a ∈ db ∧ a.fileSize = size ∧ a.fileHash = hash) ∧
    (∀ a, findDuplicateAsset db size hash = some a →
      a ∈ db ∧ a.fileSize = size ∧ a.fileHash = hash) ∧
    (∃ r1, r1 ∈ uploadFile (uploadFile db wid s1 n1 size hash mime v1 i1)
        wid s2 n2 size hash mime v2 i2 ∧
     ∃ r2, r2 ∈ uploadFile (uploadFile db wid s1 n1 size hash mime v1 i1)
        wid s2 n2 size hash mime v2 i2 ∧
      r1.originalFileName = n1 ∧ r2.originalFileName = n2 ∧
      r1.fileName = r2.fileName) := by
  refine ⟨?_, ?_, ?_⟩
  · rw [findDuplicateAsset, List.find?_isSome]
    constructor
    · rintro ⟨a, ha, hpa⟩
      simp at hpa
      exact ⟨a, ha, hpa.1, hpa.2⟩
    · rintro ⟨a, ha, h1, h2⟩
      exact ⟨a, ha, by simp [h1, h2]⟩
  · intro a h
    rw [findDuplicateAsset] at h
    have h1 := List.find?_some h
    simp at h1
    exact ⟨List.mem_of_find?_eq_some h, h1.1, h1.2⟩
  · obtain ⟨key, hkey⟩ := uploadFile_shares_key db wid s1 s2 n1 n2 size hash mime v1 v2 i1 i2
    rw [hkey]
    refine
      ⟨{ webstrateId := wid, v := v1, fileName := key, originalFileName := n1,
         fileSize := size, mimeType := mime, fileHash := hash, id := some i1 },
       by simp,
       { webstrateId := wid, v := v2, fileName := key, originalFileName := n2,
         fileSize := size, mimeType := mime, fileHash := hash, id := some i2 },
       by simp, rfl, rfl, rfl⟩

/-- The value handed to the `addAssets` callback: either the lone record
object itself (batch of exactly one) or the list of records. -/
inductive AssetRecords where
  | single : Asset → AssetRecords
  | many : List Asset → AssetRecords
deriving DecidableEq, Repr

/-- `Promise.all` over the per-file admissions of `addAssets`: a rejection
rejects the whole batch, otherwise the records are collected in order. -/
def promiseAll : List (Except String Asset) → Except String (List Asset)
  | [] => .ok []
  | .error e :: _ => .error e
  | .ok a :: rest => (promiseAll rest).map (fun l => a :: l)

/-- `addAssets` (AssetManager.js lines 409-426), abstracted over the outcome
of each `addAsset` admission: joins the per-asset promises and calls back
with `assetRecords.length === 1 ? assetRecords[0] : assetRecords`. -/
def addAssets (outcomes : List (Except String Asset)) : Except String AssetRecords :=
  match promiseAll outcomes with
  | .error e => .error e
  | .ok assetRecords =>
    .ok (match assetRecords with
      | [r] => .single r
      | rs => .many rs)

theorem promiseAll_ok (records : List Asset) :
    promiseAll (records.map Except.ok) = .ok records := by
  induction records with
  | nil => rfl
  | cons a rest ih => simp [promiseAll, ih, Except.map]

/-- C10: when every admission succeeds, `addAssets` hands the callback the
single record object itself for a one-element batch, and the list of records
for a batch of any other length. -/
theorem addAssets_spec (records : List Asset) :
    (∀ r, records = [r] → addAssets (records.map Except.ok) = .ok (.single r)) ∧
    (records.length ≠ 1 → addAssets (records.map Except.ok) = .ok (.many records)) := by
  constructor
  · intro r h
    subst h
    rfl
  · intro h
    rw [addAssets, promiseAll_ok records]
    cases records with
    | nil => rfl
    | cons a rest =>
      cases rest with
      | nil => exact absurd rfl h
      | cons b t => rfl

/-- A record for exercising the batch-size behaviour of `addAssets`. -/
def loneAsset : Asset :=
  { webstrateId := "w1", v := 1, fileName := "fs", originalFileName := "solo",
    fileSize := 2, mimeType := "text/plain", fileHash := "hx", id := some 12 }

/-- Witness for C10: a one-element batch yields the record object itself, a
two-element batch yields the list. -/
theorem addAssets_spec_witness :
    addAssets [Except.ok loneAsset] = .ok (.single loneAsset) ∧
    addAssets [Except.ok loneAsset, Except.ok loneAsset]
      = .ok (.many [loneAsset, loneAsset]) :=
  ⟨(addAssets_spec [loneAsset]).1 loneAsset rfl,
   (addAssets_spec [loneAsset, loneAsset]).2 (by decide)⟩

/-- Witness for C2: the resolver property instantiated at a concrete pair of
same-named records at versions 0 and 5. -/
theorem filterNewestAssets_spec_witness :
    ((filterNewestAssets [verZeroAssetA, verZeroAssetB]).map
      (fun a => a.originalFileName)).Nodup ∧
    ∀ a ∈ filterNewestAssets [verZeroAssetA, verZeroAssetB],
      a ∈ [verZeroAssetA, verZeroAssetB] ∧
      ∀ b ∈ [verZeroAssetA, verZeroAssetB],
        b.originalFileName = a.originalFileName → b.v ≤ a.v :=
  filterNewestAssets_spec [verZeroAssetA, verZeroAssetB]

/-- A record for exercising the duplicate finder. -/
def dupAsset : Asset :=
  { webstrateId := "w2", v := 1, fileName := "fd2", originalFileName := "dup",
    fileSize := 8, mimeType := "text/plain", fileHash := "hd2", id := some 13 }

/-- Witness for C8: the duplicate finder instantiated at a one-record store,
the `findOne` equation discharged by evaluation. -/
theorem findDuplicateAsset_spec_witness :
    dupAsset ∈ [dupAsset] ∧ dupAsset.fileSize = 8 ∧ dupAsset.fileHash = "hd2" :=
  (findDuplicateAsset_spec [dupAsset] 8 "w" "s1" "s2" "n1" "n2" "hd2" "text/plain"
    1 2 3 4).2.1 dupAsset rfl
